import Mathlib

/-!
Verification of the Deep Dream multiscale gradient-ascent core
(file src/deep_dream.py) against its natural-language specification.

The embedding models:
* numpy float arrays as total functions into the rationals (exact
  arithmetic stands in for IEEE floating point; every theorem that the
  spec states "within floating tolerance" is proved as an exact
  equality, which is stronger);
* the Caffe network, the PIL per-plane resampler, the floating-point
  octave shrink factor and the seeded numpy PRNG as components of an
  abstract oracle record (the spec, section 1, treats the network as an
  external black box reached only through forward/backward calls);
* the mutable state of the CNN object (self.img, self.total_px,
  self.progress_bar) together with the numpy global RNG as an explicit
  state record threaded through a state-plus-exception monad, so that a
  Caffe failure inside the try block of dream is representable.
-/

namespace DeepDream

/-- A channel-first (channel, row, column) float tensor, as in the
(3, h, w) numpy arrays the pipeline manipulates.  Values outside the
spatial bounds are irrelevant junk; theorems quantify over in-bounds
indices. -/
abbrev Tensor := ℕ → ℕ → ℕ → ℚ

/-- A raster image in (row, column, channel) order, as accepted by
dream and produced by to_image. -/
abbrev Raster := ℕ → ℕ → ℕ → ℚ

/-- An 8-bit output image in (row, column, channel) order. -/
abbrev Img := ℕ → ℕ → ℕ → ℕ

/-- The fixed per-channel mean of the bvlc_googlenet classifier,
np.float32((103.939, 116.779, 123.68)); caffe's Transformer stores a
1-D mean as shape (3,1,1), so it is subtracted per channel. -/
def mean : ℕ → ℚ
  | 0 => 103.939
  | 1 => 116.779
  | _ => 123.68

/-- CNN._preprocess: np.rollaxis(np.float32(img), 2)[::-1] - mean.
Rolling axis 2 to the front turns (h,w,c) into (c,h,w); [::-1] reverses
the channel axis (RGB to BGR); then the per-channel mean is subtracted.
np.float32(img) copies, so the caller's array is never mutated — in
this pure embedding the input is untouched by construction. -/
def preprocess (img : Raster) : Tensor :=
  fun c y x => img y x (2 - c) - mean c

/-- CNN._deprocess: np.dstack((img + mean)[::-1]): add the mean back,
reverse the channel axis, and restack to (h,w,c). -/
def deprocess (t : Tensor) : Raster :=
  fun y x c => t (2 - c) y x + mean (2 - c)

/-- np.round: round half to even (banker's rounding), on exact
rationals. -/
def rndEven (v : ℚ) : ℤ :=
  let f := ⌊v⌋
  let r := v - f
  if r < 1/2 then f
  else if 1/2 < r then f + 1
  else if f % 2 = 0 then f else f + 1

/-- One pixel of to_image: np.uint8(np.clip(np.round(v), 0, 255)).
After the clip the value is in [0,255] so the uint8 cast is toNat. -/
def clipRoundPx (v : ℚ) : ℕ :=
  (min 255 (max 0 (rndEven v))).toNat

/-- to_image: clips a float image to 0-255, rounds, and converts to an
8-bit PIL image; applied elementwise in (h,w,c) order. -/
def to_image (img : Raster) : Img :=
  fun y x c => clipRoundPx (img y x c)

/-! ### Tiling arithmetic of _grad_tiled

Source (lines 77-87):
  ny, nx = (h-1)//max_tile_size+1, (w-1)//max_tile_size+1
  th = h//ny;  if y == ny-1: th += h - th*ny
  sy = h//ny*y
Python // is floor division on mathematical integers, so the tile count
is modeled with Int.fdiv (for d = 0 the Python count is 0, which
truncated ℕ subtraction would not give).  max_tile_size = 0 raises
ZeroDivisionError in Python and is outside the modeled domain. -/

/-- Number of tiles along one dimension of length d with maximum tile
edge m: (d-1)//m + 1. -/
def tileCount (d m : ℕ) : ℕ :=
  (((d : ℤ) - 1).fdiv (m : ℤ) + 1).toNat

/-- Edge length of tile i along a dimension of length d: the base size
d // ny, with the remainder d - (d // ny) * ny added to the last tile. -/
def tileLen (d m i : ℕ) : ℕ :=
  let n := tileCount d m
  let t := d / n
  if i = n - 1 then t + (d - t * n) else t

/-- Starting offset of tile i along a dimension of length d:
(d // ny) * i. -/
def tileStart (d m i : ℕ) : ℕ :=
  (d / tileCount d m) * i

/-! ### Elementwise tensor operations -/

/-- The all-zero tensor, np.zeros_like. -/
def tZero : Tensor := fun _ _ _ => 0

/-- Elementwise tensor addition. -/
def tAdd (a b : Tensor) : Tensor := fun c i j => a c i j + b c i j

/-- Elementwise tensor subtraction. -/
def tSub (a b : Tensor) : Tensor := fun c i j => a c i j - b c i j

/-- np.roll along axis 2 (width): out[c,i,j] = in[c,i,(j-k) mod w]. -/
def rollW (w : ℕ) (k : ℤ) (t : Tensor) : Tensor :=
  fun c i j => t c i (((j : ℤ) - k).emod (w : ℤ)).toNat

/-- np.roll along axis 1 (height): out[c,i,j] = in[c,(i-k) mod h,j]. -/
def rollH (h : ℕ) (k : ℤ) (t : Tensor) : Tensor :=
  fun c i j => t c (((i : ℤ) - k).emod (h : ℤ)).toNat j

/-- The elements of a (3,h,w) tensor as a flat list (the array numpy
reductions such as np.median and np.abs range over). -/
def tenList (h w : ℕ) (t : Tensor) : List ℚ :=
  (List.range 3).flatMap fun c =>
    (List.range h).flatMap fun i =>
      (List.range w).map fun j => t c i j

/-- np.median: sort ascending; middle element for odd length, mean of
the two middle elements for even length.  (np.median of an empty array
is NaN; the model returns 0 there, a case no theorem relies on.) -/
def npMedian (l : List ℚ) : ℚ :=
  if l.length = 0 then 0
  else if l.length % 2 = 1 then (l.insertionSort (· ≤ ·)).getD (l.length / 2) 0
  else ((l.insertionSort (· ≤ ·)).getD (l.length / 2 - 1) 0 +
    (l.insertionSort (· ≤ ·)).getD (l.length / 2) 0) / 2

/-! ### The external-collaborator oracle

Everything the core reaches outside its own arithmetic: the Caffe
network (deterministic forward/backward at a fixed weight set), the PIL
bicubic per-plane resampler, the float shrink 2**(1/per_octave), and
the numpy Mersenne-Twister stream produced by np.random.seed(0).  The
error type ε stands for any exception Caffe may raise (e.g. GPU
out-of-memory) inside the try block of dream. -/

/-- Abstract model of the external collaborators of the core. -/
structure Oracle (ε : Type) where
  /-- Forward pass: given the end layer name, the current (3, th, tw)
  shape of the input blob and its contents, the resulting activation of
  the end layer (net.forward(end=end) followed by reading data[end]). -/
  F : String → ℕ → ℕ → Tensor → Except ε Tensor
  /-- Backward pass: given the end layer name, the input-blob shape and
  contents and the gradient seeded at the end layer, the resulting
  gradient at the input layer (net.backward(start=end) followed by
  reading diff[start]). -/
  B : String → ℕ → ℕ → Tensor → Tensor → Except ε Tensor
  /-- PIL Image.resize with BICUBIC on a single (h0, w0) float plane,
  evaluated at a pixel of the (h, w) target. -/
  resample : ℕ → ℕ → (ℕ → ℕ → ℚ) → ℕ → ℕ → ℕ → ℕ → ℚ
  /-- Modelled from the spec: np.int32(np.ceil(d / 2**(1/per_octave))),
  the next-coarser size of one spatial dimension.  The quantity
  2**(1/per_octave) is an irrational computed in floating point, so the
  shrink map is kept abstract; no claim depends on its values. -/
  shrink : ℕ → ℕ → ℕ
  /-- The draw sequence of the numpy global PRNG right after
  np.random.seed(0): draw index, low, high (as in np.random.randint)
  to drawn value.  A fixed function because the seed is fixed. -/
  zstream : ℕ → ℤ → ℤ → ℤ

/-- The configuration keywords of dream, threaded to _octave_detail,
_step and _grad_tiled through **kwargs (the octave count scale is a
separate recursion argument). -/
structure Cfg where
  endLayer : String
  n : ℕ
  per_octave : ℕ
  step_size : ℚ
  jitter : ℤ
  progress : Bool
  max_tile_size : ℕ

/-- The documented default configuration of dream. -/
def defaultCfg (endLayer : String) : Cfg :=
  ⟨endLayer, 10, 2, 1.5, 32, true, 512⟩

/-! ### _resize on raw numpy arrays (for the shape/error contract) -/

/-- An untyped numpy array: a shape and an indexing function. -/
structure NpArr where
  shape : List ℕ
  val : List ℕ → ℚ

/-- The failure modes of _resize: the explicit
TypeError('Only 3D CxHxW arrays are supported') raised for a
non-3-dimensional input (the InvalidShape error of the spec), and the
ValueError np.stack raises on the empty plane list produced by a
3-dimensional input with zero channels. -/
inductive ResizeErr
  | invalidShape
  | stackEmpty
  deriving DecidableEq

/-- _resize: checks arr.ndim == 3, splits the array into channel
planes, resizes each plane with PIL bicubic, and np.stack's the results
into a (c, h, w) array.  np.stack of the empty list (a 3-D input with
shape[0] = 0) raises ValueError. -/
def resize {ε : Type} (O : Oracle ε) (arr : NpArr) (h w : ℕ) :
    Except ResizeErr NpArr :=
  match arr.shape with
  | [c, h0, w0] =>
    if c = 0 then Except.error ResizeErr.stackEmpty
    else Except.ok ⟨[c, h, w], fun idx =>
      match idx with
      | [i, y, x] => O.resample h0 w0 (fun a b => arr.val [i, a, b]) h w y x
      | _ => 0⟩
  | _ => Except.error ResizeErr.invalidShape

/-- The Tensor-level view of _resize on the (3, h0, w0) tensors the
octave scheduler passes: the same per-plane resample, stacked.  (On
these arguments _resize always takes its success path.) -/
def resizeT {ε : Type} (O : Oracle ε) (h0 w0 : ℕ) (t : Tensor) (h w : ℕ) :
    Tensor :=
  fun c i j => if c < 3 then O.resample h0 w0 (fun a b => t c a b) h w i j else 0

/-! ### Mutable state of a dream run -/

/-- The tqdm progress bar: its total at creation time, the cumulative
pixels reported through update, and whether close() has run. -/
structure Bar where
  total : ℕ
  count : ℕ
  closed : Bool
  deriving DecidableEq

/-- The mutable state a dream run threads: the img / total_px /
progress_bar attributes of the CNN object (imgH, imgW record the
current (3, h, w) shape of self.img, implicit in the numpy array), and
the numpy global RNG state as a draw stream plus position. -/
structure DD where
  img : Tensor
  imgH : ℕ
  imgW : ℕ
  totalPx : ℕ
  progressBar : Option Bar
  rngStream : ℕ → ℤ → ℤ → ℤ
  rngPos : ℕ

/-- A stateful computation that can raise: the Python state is kept
even when an exception propagates (the object outlives the raise). -/
def M (ε α : Type) : Type := DD → Except ε α × DD

/-- Sequencing in M: run m; on success continue, on an exception
short-circuit, keeping the state at the raise point. -/
def mbind {ε α β : Type} (m : M ε α) (f : α → M ε β) : M ε β :=
  fun s =>
    match m s with
    | (Except.ok a, s1) => f a s1
    | (Except.error e, s1) => (Except.error e, s1)

/-- Return a pure value. -/
def mpure {ε α : Type} (a : α) : M ε α := fun s => (Except.ok a, s)

/-- Read the current state. -/
def mget {ε : Type} : M ε DD := fun s => (Except.ok s, s)

/-- Update the current state. -/
def mmodify {ε : Type} (f : DD → DD) : M ε Unit := fun s => (Except.ok (), f s)

/-- Lift the result of an external call, which may raise. -/
def mlift {ε α : Type} (r : Except ε α) : M ε α := fun s => (r, s)

/-- Python try/finally where the finalizer is a pure state update: the
finalizer runs whether the body returned or raised, and the body's
outcome is then propagated. -/
def runFinally {ε α : Type} (body : M ε α) (fin : DD → DD) : M ε α :=
  fun s =>
    let r := body s
    (r.1, fin r.2)

/-- One draw of np.random.randint(low, high) from the global RNG. -/
def draw {ε : Type} (lo hi : ℤ) : M ε ℤ :=
  fun s => (Except.ok (s.rngStream s.rngPos lo hi), {s with rngPos := s.rngPos + 1})

/-- for i in range(k): body, threading an accumulator through the
iterations in index order 0, 1, ..., k-1. -/
def forFold {ε α : Type} : ℕ → α → (α → ℕ → M ε α) → M ε α
  | 0, a, _ => mpure a
  | Nat.succ k, a, body => mbind (forFold k a body) (fun a1 => body a1 k)

/-! ### _grad_tiled -/

/-- Lines 72-75 of _grad_tiled: if progress is requested and no bar
exists yet, create a tqdm bar with total = self.total_px (its counter
starts at 0). -/
def ensureBar {ε : Type} (progress : Bool) : M ε Unit :=
  if progress then
    fun s =>
      (Except.ok (),
        match s.progressBar with
        | none => {s with progressBar := some ⟨s.totalPx, 0, false⟩}
        | some _ => s)
  else mpure ()

/-- self.progress_bar.update(k): add k to the reported pixel count. -/
def barUpdate {ε : Type} (k : ℕ) : M ε Unit :=
  mmodify fun s =>
    {s with progressBar := s.progressBar.map fun b => {b with count := b.count + k}}

/-- The body of the tile loop of _grad_tiled for tile (y, x) of an
(h, w) image: reshape the input blob to (1, 3, th, tw), copy the tile
of self.img into it, forward to the end layer, seed that layer's diff
with its own activation, backward, and write the input-layer gradient
into the matching region of the accumulator g; then report th*tw pixels
if progress is on. -/
def tileBody {ε : Type} (O : Oracle ε) (C : Cfg) (h w y x : ℕ) (g : Tensor) :
    M ε Tensor :=
  let th := tileLen h C.max_tile_size y
  let tw := tileLen w C.max_tile_size x
  let sy := tileStart h C.max_tile_size y
  let sx := tileStart w C.max_tile_size x
  mbind mget fun st =>
    let tile : Tensor := fun c i j =>
      if i < th ∧ j < tw then st.img c (sy + i) (sx + j) else 0
    mbind (mlift (O.F C.endLayer th tw tile)) fun act =>
      mbind (mlift (O.B C.endLayer th tw tile act)) fun grd =>
        mbind (if C.progress then barUpdate (th * tw) else mpure ()) fun _ =>
          mpure fun c i j =>
            if sy ≤ i ∧ i < sy + th ∧ sx ≤ j ∧ j < sx + tw then
              grd c (i - sy) (j - sx)
            else g c i j

/-- _grad_tiled: ensure the progress bar, partition self.img's (h, w)
into tileCount h m by tileCount w m tiles, run the per-tile
forward/backward sequentially in row-major order, and stitch the
input-layer gradients into a zero-initialized accumulator. -/
def grad_tiled {ε : Type} (O : Oracle ε) (C : Cfg) : M ε Tensor :=
  mbind (ensureBar C.progress) fun _ =>
    mbind mget fun st =>
      forFold (tileCount st.imgH C.max_tile_size) tZero fun g y =>
        forFold (tileCount st.imgW C.max_tile_size) g fun g1 x =>
          tileBody O C st.imgH st.imgW y x g1

/-- Modelled from the spec (section 8, Tiling equivalence): the gradient
computed by one direct forward/backward over the whole (h, w) image —
reshape the input layer to the full image, copy it in, forward to the
end layer, seed that layer's gradient with its own activation, backward
to the input layer. -/
def gradDirect {ε : Type} (O : Oracle ε) (C : Cfg) (h w : ℕ) (img : Tensor) :
    Except ε Tensor :=
  let input : Tensor := fun c i j => if i < h ∧ j < w then img c i j else 0
  match O.F C.endLayer h w input with
  | Except.error e => Except.error e
  | Except.ok act => O.B C.endLayer h w input act

/-! ### _step -/

/-- One gradient-ascent iteration of _step: draw a jitter offset
(x, y) with np.random.randint(-jitter, jitter+1, 2), roll the image by
x on axis 2 and y on axis 1, compute the tiled gradient, apply
img += step_size * g / np.median(np.abs(g)), and roll back. -/
def stepOnce {ε : Type} (O : Oracle ε) (C : Cfg) : M ε Unit :=
  mbind (draw (-C.jitter) (C.jitter + 1)) fun x =>
    mbind (draw (-C.jitter) (C.jitter + 1)) fun y =>
      mbind (mmodify fun s => {s with img := rollH s.imgH y (rollW s.imgW x s.img)}) fun _ =>
        mbind (grad_tiled O C) fun g =>
          mbind (mmodify fun s =>
              {s with img := (fun c i j =>
                s.img c i j +
                  C.step_size * g c i j /
                    npMedian ((tenList s.imgH s.imgW g).map fun v => |v|))}) fun _ =>
            mmodify fun s => {s with img := rollH s.imgH (-y) (rollW s.imgW (-x) s.img)}

/-- _step(n): n gradient-ascent iterations in sequence. -/
def step {ε : Type} (O : Oracle ε) (C : Cfg) : ℕ → M ε Unit
  | 0 => mpure ()
  | Nat.succ k => mbind (stepOnce O C) fun _ => step O C k

/-! ### _octave_detail -/

/-- The shared tail of _octave_detail after detail is known:
self.img = base + detail; self._step(n); return self.img - base. -/
def octaveFinish {ε : Type} (O : Oracle ε) (C : Cfg) (h w : ℕ)
    (base detail : Tensor) : M ε Tensor :=
  mbind (mmodify fun st => {st with img := tAdd base detail, imgH := h, imgW := w}) fun _ =>
    mbind (step O C C.n) fun _ =>
      mbind mget fun st => mpure (tSub st.img base)

/-- self.total_px += base.shape[1] * base.shape[2] * n, executed at the
start of every _octave_detail call (before the recursion, so every
level is accumulated before the first ascent step runs). -/
def addPx {ε : Type} (h w n : ℕ) : M ε Unit :=
  mmodify fun st => {st with totalPx := st.totalPx + h * w * n}

/-- _octave_detail on a (3, h, w) base image: detail starts at zeros;
for scale != 1 the base is shrunk by 2**(1/per_octave) per axis
(rounded up), the next-coarser detail is computed recursively with
scale - 1 and resized back up to (h, w); then the shared tail runs n
ascent steps on base + detail and returns the new detail.

The source recurses on scale - 1 whenever scale != 1, so a call with
scale = 0 never terminates in Python; the scale = 0 clause below is
unreachable junk (mirroring the base case) that no theorem relies on. -/
def octave_detail {ε : Type} (O : Oracle ε) (C : Cfg) :
    ℕ → ℕ → ℕ → Tensor → M ε Tensor
  | 0, h, w, base =>
    mbind (addPx h w C.n) fun _ => octaveFinish O C h w base tZero
  | 1, h, w, base =>
    mbind (addPx h w C.n) fun _ => octaveFinish O C h w base tZero
  | Nat.succ (Nat.succ s), h, w, base =>
    mbind (addPx h w C.n) fun _ =>
      mbind
        (octave_detail O C (Nat.succ s) (O.shrink C.per_octave h)
          (O.shrink C.per_octave w)
          (resizeT O h w base (O.shrink C.per_octave h) (O.shrink C.per_octave w)))
        fun smaller_detail =>
          octaveFinish O C h w base
            (resizeT O (O.shrink C.per_octave h) (O.shrink C.per_octave w)
              smaller_detail h w)

/-- The (height, width) of every octave level a run with the given
scale visits, finest first — the shapes on which _octave_detail
accumulates total_px and runs its ascent steps. -/
def levelSizes {ε : Type} (O : Oracle ε) (C : Cfg) :
    ℕ → ℕ → ℕ → List (ℕ × ℕ)
  | 0, h, w => [(h, w)]
  | 1, h, w => [(h, w)]
  | Nat.succ (Nat.succ s), h, w =>
    (h, w) :: levelSizes O C (Nat.succ s) (O.shrink C.per_octave h) (O.shrink C.per_octave w)

/-! ### dream -/

/-- The finally block of dream: if self.progress_bar: close it. -/
def closeBar (s : DD) : DD :=
  {s with progressBar := s.progressBar.map fun b => {b with closed := true}}

/-- dream: zero every layer's diff buffer (a no-op on the functional
network model, which holds no gradient state between calls), preprocess
the input (h, w, 3) image, reset the numpy seed to the constant 0,
reset total_px and the progress bar, run _octave_detail inside
try/finally (the finally closes the bar whether the recursion returned
or raised), and postprocess detail + input into the output image. -/
def dream {ε : Type} (O : Oracle ε) (C : Cfg) (scale H W : ℕ)
    (input : Raster) : M ε Img :=
  let input_arr := preprocess input
  mbind (mmodify fun s =>
      {s with rngStream := O.zstream, rngPos := 0, totalPx := 0,
              progressBar := none}) fun _ =>
    mbind (runFinally (octave_detail O C scale H W input_arr) closeBar) fun detail =>
      mpure (to_image (deprocess (tAdd detail input_arr)))

/-- The cumulative pixel count held by an optional progress bar. -/
def barCountO : Option Bar → ℕ
  | none => 0
  | some b => b.count

/-- A combined projection of every DD field except the progress bar;
_grad_tiled touches nothing but the bar (and the network, which is
functional here). -/
def ddCore (s : DD) : Tensor × ℕ × ℕ × ℕ × (ℕ → ℤ → ℤ → ℤ) × ℕ :=
  (s.img, s.imgH, s.imgW, s.totalPx, s.rngStream, s.rngPos)

/-- The (imgH, imgW, totalPx, rngStream) projection, invariant under
_step (only self.img, the bar and the draw position change there). -/
def ddStep (s : DD) : ℕ × ℕ × ℕ × (ℕ → ℤ → ℤ → ℤ) :=
  (s.imgH, s.imgW, s.totalPx, s.rngStream)

/-! ### Concrete fixtures for witness instantiations -/

/-- A trivially succeeding concrete oracle (constant activations and
gradients) used to instantiate theorems at concrete inputs. -/
def testOracle : Oracle Unit :=
  ⟨fun _ _ _ _ => Except.ok fun _ _ _ => 1,
   fun _ _ _ _ _ => Except.ok fun _ _ _ => 1,
   fun _ _ _ _ _ _ _ => 0,
   fun _ d => d,
   fun _ _ _ => 0⟩

/-- A concrete oracle whose backward pass always returns the uniformly
zero gradient. -/
def zeroGradOracle : Oracle Unit :=
  ⟨fun _ _ _ _ => Except.ok tZero,
   fun _ _ _ _ _ => Except.ok tZero,
   fun _ _ _ _ _ _ _ => 0,
   fun _ d => d,
   fun _ _ _ => 0⟩

/-- A small concrete configuration: one step per octave, jitter 0,
progress on, tile edge 1. -/
def testCfg : Cfg := ⟨"probe", 1, 2, 1, 0, true, 1⟩

/-- A concrete initial object state with a 1 by 1 image. -/
def testState : DD := ⟨tZero, 1, 1, 0, none, fun _ _ _ => 0, 0⟩

/-! ## Tiling arithmetic lemmas -/

theorem tileCount_eq (d m : ℕ) (hd : 0 < d) :
    tileCount d m = (d - 1) / m + 1 := by
  unfold tileCount
  have h1 : ((d : ℤ) - 1) = ((d - 1 : ℕ) : ℤ) := by
    have : (1 : ℕ) ≤ d := hd
    push_cast [this]
    ring
  rw [h1, Int.fdiv_eq_ediv _ (Int.natCast_nonneg m), ← Int.ofNat_ediv]
  have h3 : (0 : ℤ) ≤ ((d - 1) / m : ℕ) := Int.natCast_nonneg _
  omega

theorem tileCount_pos (d m : ℕ) (hd : 0 < d) : 0 < tileCount d m := by
  rw [tileCount_eq d m hd]
  exact Nat.succ_pos _

theorem tileCount_ceil (d m : ℕ) (hd : 0 < d) (hm : 0 < m) :
    tileCount d m = (d + m - 1) / m := by
  rw [tileCount_eq d m hd]
  have h1 : d + m - 1 = (d - 1) + m := by omega
  rw [h1, Nat.add_div_right _ hm]

theorem tileLen_last (d m : ℕ) :
    tileLen d m (tileCount d m - 1) =
      d / tileCount d m + (d - d / tileCount d m * tileCount d m) := by
  simp [tileLen]

theorem tileLen_other (d m t : ℕ) (ht : t ≠ tileCount d m - 1) :
    tileLen d m t = d / tileCount d m := by
  simp [tileLen, ht]

theorem tileStart_eq (d m t : ℕ) : tileStart d m t = d / tileCount d m * t := rfl

theorem tile_last_end (d m : ℕ) (hd : 0 < d) :
    tileStart d m (tileCount d m - 1) + tileLen d m (tileCount d m - 1) = d := by
  have hn := tileCount_pos d m hd
  rw [tileStart_eq, tileLen_last]
  have hqn : d / tileCount d m * tileCount d m ≤ d := Nat.div_mul_le_self d _
  have hmul : d / tileCount d m * (tileCount d m - 1) + d / tileCount d m =
      d / tileCount d m * tileCount d m := by
    rw [← Nat.mul_succ, Nat.succ_eq_add_one]
    congr 1
    omega
  omega

/-- Each in-bounds coordinate lies in exactly one tile along its axis. -/
theorem tile_mem_unique (d m : ℕ) (hd : 0 < d) (i : ℕ) (hi : i < d) :
    ∃! t, t < tileCount d m ∧ tileStart d m t ≤ i ∧
      i < tileStart d m t + tileLen d m t := by
  have hn1 : 0 < tileCount d m := tileCount_pos d m hd
  have hlast := tile_last_end d m hd
  rw [tileStart_eq, tileLen_last] at hlast
  -- a non-last tile and any strictly later tile cannot both contain i
  have key : ∀ a b, a < b → b < tileCount d m →
      d / tileCount d m * a ≤ i → i < d / tileCount d m * a + tileLen d m a →
      d / tileCount d m * b ≤ i → False := by
    intro a b hab hbn ha1 ha2 hb1
    rw [tileLen_other d m a (by omega)] at ha2
    have hmono : d / tileCount d m * (a + 1) ≤ d / tileCount d m * b :=
      Nat.mul_le_mul_left _ (by omega)
    have hsucc : d / tileCount d m * a + d / tileCount d m =
        d / tileCount d m * (a + 1) := by ring
    omega
  have huniq : ∀ t1 t2,
      (t1 < tileCount d m ∧ tileStart d m t1 ≤ i ∧
        i < tileStart d m t1 + tileLen d m t1) →
      (t2 < tileCount d m ∧ tileStart d m t2 ≤ i ∧
        i < tileStart d m t2 + tileLen d m t2) →
      t1 = t2 := by
    intro t1 t2 h1 h2
    rw [tileStart_eq] at h1 h2
    rcases lt_trichotomy t1 t2 with h | h | h
    · exact absurd (key t1 t2 h h2.1 h1.2.1 h1.2.2 h2.2.1) not_false
    · exact h
    · exact absurd (key t2 t1 h h1.1 h2.2.1 h2.2.2 h1.2.1) not_false
  by_cases hcase : i < d / tileCount d m * (tileCount d m - 1)
  · have hq0 : 0 < d / tileCount d m := by
      rcases Nat.eq_zero_or_pos (d / tileCount d m) with h0 | h0
      · rw [h0] at hcase; simp at hcase
      · exact h0
    have htlt : i / (d / tileCount d m) < tileCount d m - 1 := by
      rw [Nat.div_lt_iff_lt_mul hq0]
      have : (tileCount d m - 1) * (d / tileCount d m) =
          d / tileCount d m * (tileCount d m - 1) := by ring
      omega
    have hmem1 : tileStart d m (i / (d / tileCount d m)) ≤ i := by
      rw [tileStart_eq]
      exact Nat.mul_div_le i _
    have hmem2 : i < tileStart d m (i / (d / tileCount d m)) +
        tileLen d m (i / (d / tileCount d m)) := by
      rw [tileStart_eq, tileLen_other d m _ (by omega)]
      have hdm := Nat.div_add_mod i (d / tileCount d m)
      have hmod : i % (d / tileCount d m) < d / tileCount d m :=
        Nat.mod_lt i hq0
      omega
    exact ⟨i / (d / tileCount d m), ⟨by omega, hmem1, hmem2⟩,
      fun t ht => huniq t _ ht ⟨by omega, hmem1, hmem2⟩⟩
  · have hmem1 : tileStart d m (tileCount d m - 1) ≤ i := by
      rw [tileStart_eq]; omega
    have hmem2 : i < tileStart d m (tileCount d m - 1) +
        tileLen d m (tileCount d m - 1) := by
      rw [tileStart_eq, tileLen_last]; omega
    exact ⟨tileCount d m - 1, ⟨by omega, hmem1, hmem2⟩,
      fun t ht => huniq t _ ht ⟨by omega, hmem1, hmem2⟩⟩

theorem sum_map_const_range (k c : ℕ) :
    ((List.range k).map fun _ => c).sum = k * c := by
  induction k with
  | zero => simp
  | succ j ih =>
    rw [List.range_succ, List.map_append, List.sum_append, ih]
    simp
    ring

/-- The tile edges along one axis sum to the axis length. -/
theorem sum_tileLen (d m : ℕ) (hd : 0 < d) :
    ((List.range (tileCount d m)).map (tileLen d m)).sum = d := by
  have hn1 : 0 < tileCount d m := tileCount_pos d m hd
  have hqn : d / tileCount d m * tileCount d m ≤ d := Nat.div_mul_le_self d _
  obtain ⟨k, hk⟩ : ∃ k, tileCount d m = k + 1 := ⟨tileCount d m - 1, by omega⟩
  rw [hk, List.range_succ, List.map_append, List.sum_append]
  have hother : ∀ t ∈ List.range k, tileLen d m t = d / tileCount d m := by
    intro t ht
    rw [List.mem_range] at ht
    exact tileLen_other d m t (by omega)
  rw [List.map_congr_left hother]
  rw [sum_map_const_range k (d / tileCount d m)]
  have hlen : tileLen d m k = d / tileCount d m +
      (d - d / tileCount d m * tileCount d m) := by
    have hk1 : k = tileCount d m - 1 := by omega
    rw [hk1, tileLen_last]
  simp only [List.map_cons, List.map_nil, List.sum_cons, List.sum_nil]
  rw [hlen]
  have hs : k * (d / tileCount d m) + (d / tileCount d m) =
      d / tileCount d m * (k + 1) := by ring
  have hkk : d / tileCount d m * (k + 1) = d / tileCount d m * tileCount d m := by
    rw [hk]
  omega

/-! ## Claim C1 -/

/-- Claim C1: for every (positive) height, width and max_tile_edge, the
tiled gradient engine partitions the image into ceil(h/m) by ceil(w/m)
tiles whose regions exactly cover the image with no overlap and no gaps
(every in-bounds pixel lies in exactly one tile region), with base tile
size given by integer division and the remainder absorbed entirely by
the last tile in each dimension. -/
theorem tile_partition_exact (h w m : ℕ) (hh : 0 < h) (hw : 0 < w) (hm : 0 < m) :
    tileCount h m = (h + m - 1) / m ∧
    tileCount w m = (w + m - 1) / m ∧
    (∀ t, t ≠ tileCount h m - 1 → tileLen h m t = h / tileCount h m) ∧
    (∀ t, t ≠ tileCount w m - 1 → tileLen w m t = w / tileCount w m) ∧
    tileLen h m (tileCount h m - 1) =
      h / tileCount h m + (h - h / tileCount h m * tileCount h m) ∧
    tileLen w m (tileCount w m - 1) =
      w / tileCount w m + (w - w / tileCount w m * tileCount w m) ∧
    (∀ y x, y < h → x < w →
      ∃! p : ℕ × ℕ, p.1 < tileCount h m ∧ p.2 < tileCount w m ∧
        tileStart h m p.1 ≤ y ∧ y < tileStart h m p.1 + tileLen h m p.1 ∧
        tileStart w m p.2 ≤ x ∧ x < tileStart w m p.2 + tileLen w m p.2) := by
  refine ⟨tileCount_ceil h m hh hm, tileCount_ceil w m hw hm,
    fun t ht => tileLen_other h m t ht, fun t ht => tileLen_other w m t ht,
    tileLen_last h m, tileLen_last w m, fun y x hy hx => ?_⟩
  obtain ⟨ty, hty, huy⟩ := tile_mem_unique h m hh y hy
  obtain ⟨tx, htx, hux⟩ := tile_mem_unique w m hw x hx
  refine ⟨(ty, tx), ⟨hty.1, htx.1, hty.2.1, hty.2.2, htx.2.1, htx.2.2⟩, ?_⟩
  rintro ⟨p1, p2⟩ ⟨hp1, hp2, hp3, hp4, hp5, hp6⟩
  have e1 : p1 = ty := huy p1 ⟨hp1, hp3, hp4⟩
  have e2 : p2 = tx := hux p2 ⟨hp2, hp5, hp6⟩
  exact Prod.ext e1 e2

/-- Witness for C1 at the concrete partition of a 10 by 7 image with
max tile edge 3. -/
theorem tile_partition_exact_witness :
    tileCount 10 3 = (10 + 3 - 1) / 3 ∧
    tileCount 7 3 = (7 + 3 - 1) / 3 ∧
    (∀ t, t ≠ tileCount 10 3 - 1 → tileLen 10 3 t = 10 / tileCount 10 3) ∧
    (∀ t, t ≠ tileCount 7 3 - 1 → tileLen 7 3 t = 7 / tileCount 7 3) ∧
    tileLen 10 3 (tileCount 10 3 - 1) =
      10 / tileCount 10 3 + (10 - 10 / tileCount 10 3 * tileCount 10 3) ∧
    tileLen 7 3 (tileCount 7 3 - 1) =
      7 / tileCount 7 3 + (7 - 7 / tileCount 7 3 * tileCount 7 3) ∧
    (∀ y x, y < 10 → x < 7 →
      ∃! p : ℕ × ℕ, p.1 < tileCount 10 3 ∧ p.2 < tileCount 7 3 ∧
        tileStart 10 3 p.1 ≤ y ∧ y < tileStart 10 3 p.1 + tileLen 10 3 p.1 ∧
        tileStart 7 3 p.2 ≤ x ∧ x < tileStart 7 3 p.2 + tileLen 7 3 p.2) :=
  tile_partition_exact 10 7 3 (by decide) (by decide) (by decide)

/-! ## Claim C10 -/

/-- Claim C10: the last tile in a dimension can be strictly longer than
max_tile_size (height 10 with max_tile_size 3 gives 4 tiles, base
height 2 and a last tile of height 4), and only non-last tiles are
bounded by max_tile_size. -/
theorem last_tile_can_exceed_max :
    (tileCount 10 3 = 4 ∧ tileLen 10 3 0 = 2 ∧ tileLen 10 3 1 = 2 ∧
      tileLen 10 3 2 = 2 ∧ tileLen 10 3 3 = 4 ∧ 3 < tileLen 10 3 3) ∧
    (∀ d m t, 0 < d → 0 < m → t < tileCount d m - 1 → tileLen d m t ≤ m) := by
  constructor
  · exact ⟨by decide, by decide, by decide, by decide, by decide, by decide⟩
  · intro d m t hd hm ht
    rw [tileLen_other d m t (by omega)]
    have hn1 : 0 < tileCount d m := tileCount_pos d m hd
    have heq := tileCount_eq d m hd
    have hdm := Nat.div_add_mod (d - 1) m
    have hmod : (d - 1) % m < m := Nat.mod_lt _ hm
    have hmn : m * tileCount d m = m * ((d - 1) / m) + m := by rw [heq]; ring
    have hle : d ≤ m * tileCount d m := by omega
    have hlt : d / tileCount d m < m + 1 := by
      rw [Nat.div_lt_iff_lt_mul hn1]
      have h2 : (m + 1) * tileCount d m = m * tileCount d m + tileCount d m := by
        ring
      omega
    omega

/-- Witness for the bound on non-last tiles: tile 0 of a dimension of
length 20 with max tile edge 6 has length 5 which is at most 6. -/
theorem last_tile_can_exceed_max_witness : tileLen 20 6 0 ≤ 6 :=
  last_tile_can_exceed_max.2 20 6 0 (by decide) (by decide) (by decide)

/-! ## Claim C2 -/

/-- Claim C2: for every raster image, postprocessing the preprocessed
image (to_image of _deprocess of _preprocess) equals clip-round of the
original image elementwise on every real channel (exact equality in
exact arithmetic, hence within any floating tolerance of at most 1);
and _preprocess copies via np.float32, never mutating its caller's
input — in this pure embedding the input is untouched by
construction. -/
theorem round_trip_identity (I : Raster) (y x c : ℕ) (hc : c < 3) :
    to_image (deprocess (preprocess I)) y x c = to_image I y x c := by
  unfold to_image deprocess preprocess
  have h2 : 2 - (2 - c) = c := by omega
  simp [h2]

/-- Witness for C2 on a constant image at channel 2. -/
theorem round_trip_identity_witness :
    2 < 3 ∧
      to_image (deprocess (preprocess fun _ _ _ => 100)) 0 0 2 =
        to_image (fun _ _ _ => 100) 0 0 2 :=
  ⟨by decide, round_trip_identity (fun _ _ _ => 100) 0 0 2 (by decide)⟩

/-! ## Claim C7 -/

/-- Claim C7 counterexample: a 3-dimensional input with zero channels
does not succeed — np.stack of the empty plane list raises ValueError,
so it is not true that _resize succeeds on every 3-dimensional
channel-first input. -/
theorem resize_zero_channels_fails :
    (NpArr.mk [0, 4, 4] fun _ => 0).shape.length = 3 ∧
    resize testOracle ⟨[0, 4, 4], fun _ => 0⟩ 2 2 =
      Except.error ResizeErr.stackEmpty :=
  ⟨rfl, rfl⟩

/-- Claim C7 (amended): _resize fails with the InvalidShape error
(TypeError) if and only if its input is not 3-dimensional; and for
every 3-dimensional channel-first input with at least one channel it
succeeds and returns an array of shape (channels, target_height,
target_width). -/
theorem resize_shape_contract {ε : Type} (O : Oracle ε) (arr : NpArr) (h w : ℕ) :
    ((resize O arr h w = Except.error ResizeErr.invalidShape) ↔
      arr.shape.length ≠ 3) ∧
    (∀ c h0 w0, arr.shape = [c, h0, w0] → 0 < c →
      ∃ out, resize O arr h w = Except.ok out ∧ out.shape = [c, h, w]) := by
  obtain ⟨shape, val⟩ := arr
  rcases shape with _ | ⟨a, _ | ⟨b, _ | ⟨c2, _ | ⟨e, rest⟩⟩⟩⟩
  · exact ⟨⟨fun _ => by simp, fun _ => rfl⟩, fun c h0 w0 habs => by simp at habs⟩
  · exact ⟨⟨fun _ => by simp, fun _ => rfl⟩, fun c h0 w0 habs => by simp at habs⟩
  · exact ⟨⟨fun _ => by simp, fun _ => rfl⟩, fun c h0 w0 habs => by simp at habs⟩
  · constructor
    · constructor
      · intro hres
        by_cases ha : a = 0
        · simp [resize, ha] at hres
        · simp [resize, ha] at hres
      · intro hlen
        exact absurd rfl hlen
    · intro c h0 w0 heq hc
      obtain ⟨rfl, rfl, rfl⟩ : a = c ∧ b = h0 ∧ c2 = w0 := by simpa using heq
      have hc0 : ¬ a = 0 := by omega
      refine ⟨⟨[a, h, w], fun idx =>
        match idx with
        | [i, y, x] => O.resample b c2 (fun p q => val [i, p, q]) h w y x
        | _ => 0⟩, ?_, rfl⟩
      simp [resize, hc0]
  · exact ⟨⟨fun _ => by simp, fun _ => rfl⟩, fun c h0 w0 habs => by simp at habs⟩

/-- Witness for the amended C7 on a (1, 2, 2) input resized to 3 by 3. -/
theorem resize_shape_contract_witness :
    ∃ out, resize testOracle ⟨[1, 2, 2], fun _ => 0⟩ 3 3 = Except.ok out ∧
      out.shape = [1, 3, 3] :=
  (resize_shape_contract testOracle ⟨[1, 2, 2], fun _ => 0⟩ 3 3).2 1 2 2 rfl
    (by decide)

/-! ## State-threading lemmas -/

theorem mbind_core {ε α β : Type} (m : M ε α) (f : α → M ε β)
    (hm : ∀ s, ddCore ((m s).2) = ddCore s)
    (hf : ∀ a s, ddCore ((f a s).2) = ddCore s) :
    ∀ s, ddCore ((mbind m f s).2) = ddCore s := by
  intro s
  simp only [mbind]
  rcases hms : m s with ⟨r, s1⟩
  have h1 : ddCore s1 = ddCore s := by
    have h2 := hm s
    rw [hms] at h2
    exact h2
  cases r with
  | ok a => exact (hf a s1).trans h1
  | error e => exact h1

theorem forFold_preserve {ε α γ : Type} (f : DD → γ) (body : α → ℕ → M ε α)
    (hbody : ∀ a i s, f ((body a i s).2) = f s) :
    ∀ k a s, f ((forFold k a body s).2) = f s := by
  intro k
  induction k with
  | zero => intro a s; rfl
  | succ k ih =>
    intro a s
    show f ((mbind (forFold k a body) (fun a1 => body a1 k) s).2) = f s
    simp only [mbind]
    rcases hfk : forFold k a body s with ⟨r, s1⟩
    have h1 : f s1 = f s := by
      have h2 := ih a s
      rw [hfk] at h2
      exact h2
    cases r with
    | ok a1 => exact (hbody a1 k s1).trans h1
    | error e => exact h1

theorem forFold_ok_inv {ε α : Type} (P : α → Prop) (body : α → ℕ → M ε α)
    (hbody : ∀ a i s, P a → ∃ a1 s1, body a i s = (Except.ok a1, s1) ∧ P a1) :
    ∀ k a s, P a → ∃ a1 s1, forFold k a body s = (Except.ok a1, s1) ∧ P a1 := by
  intro k
  induction k with
  | zero => intro a s ha; exact ⟨a, s, rfl, ha⟩
  | succ k ih =>
    intro a s ha
    obtain ⟨a1, s1, h1, hP1⟩ := ih a s ha
    obtain ⟨a2, s2, h2, hP2⟩ := hbody a1 k s1 hP1
    refine ⟨a2, s2, ?_, hP2⟩
    show mbind (forFold k a body) (fun x => body x k) s = (Except.ok a2, s2)
    simp only [mbind, h1]
    exact h2

theorem forFold_count {ε α : Type} (body : α → ℕ → M ε α) (f : ℕ → ℕ)
    (hbody : ∀ a i s a1 s1, s.progressBar.isSome = true →
      body a i s = (Except.ok a1, s1) →
      s1.progressBar.isSome = true ∧
        barCountO s1.progressBar = barCountO s.progressBar + f i) :
    ∀ k a s a1 s1, s.progressBar.isSome = true →
      forFold k a body s = (Except.ok a1, s1) →
      s1.progressBar.isSome = true ∧
        barCountO s1.progressBar =
          barCountO s.progressBar + ((List.range k).map f).sum := by
  intro k
  induction k with
  | zero =>
    intro a s a1 s1 hs h
    have h' : ((Except.ok a : Except ε α), s) = (Except.ok a1, s1) := h
    injection h' with h1 h2
    injection h1 with h1
    subst h1
    subst h2
    exact ⟨hs, by simp⟩
  | succ k ih =>
    intro a s a1 s1 hs h
    have h' : mbind (forFold k a body) (fun x => body x k) s = (Except.ok a1, s1) := h
    simp only [mbind] at h'
    rcases hfk : forFold k a body s with ⟨r, sm⟩
    rw [hfk] at h'
    cases r with
    | error e =>
      exact absurd (congrArg Prod.fst h') (by simp)
    | ok am =>
      obtain ⟨hsm, hcm⟩ := ih a s am sm hs hfk
      obtain ⟨hs1, hc1⟩ := hbody am k sm a1 s1 hsm h'
      refine ⟨hs1, ?_⟩
      rw [hc1, hcm]
      simp [List.range_succ]
      omega

theorem core_img {s1 s2 : DD} (h : ddCore s1 = ddCore s2) : s1.img = s2.img :=
  congrArg (fun t => t.1) h

theorem core_imgH {s1 s2 : DD} (h : ddCore s1 = ddCore s2) : s1.imgH = s2.imgH :=
  congrArg (fun t => t.2.1) h

theorem core_imgW {s1 s2 : DD} (h : ddCore s1 = ddCore s2) : s1.imgW = s2.imgW :=
  congrArg (fun t => t.2.2.1) h

theorem core_totalPx {s1 s2 : DD} (h : ddCore s1 = ddCore s2) :
    s1.totalPx = s2.totalPx :=
  congrArg (fun t => t.2.2.2.1) h

theorem core_rngStream {s1 s2 : DD} (h : ddCore s1 = ddCore s2) :
    s1.rngStream = s2.rngStream :=
  congrArg (fun t => t.2.2.2.2.1) h

theorem core_rngPos {s1 s2 : DD} (h : ddCore s1 = ddCore s2) :
    s1.rngPos = s2.rngPos :=
  congrArg (fun t => t.2.2.2.2.2) h

theorem ensureBar_fst {ε : Type} (p : Bool) (s : DD) :
    ((ensureBar p : M ε Unit) s).1 = Except.ok () := by
  cases p with
  | false => rfl
  | true => rfl

theorem ensureBar_core {ε : Type} (p : Bool) (s : DD) :
    ddCore (((ensureBar p : M ε Unit) s).2) = ddCore s := by
  cases p with
  | false => rfl
  | true =>
    show ddCore (match s.progressBar with
      | none => {s with progressBar := some ⟨s.totalPx, 0, false⟩}
      | some _ => s) = ddCore s
    cases s.progressBar with
    | none => rfl
    | some b => rfl

theorem ensureBar_isSome {ε : Type} (s : DD) :
    (((ensureBar true : M ε Unit) s).2).progressBar.isSome = true := by
  show (match s.progressBar with
    | none => {s with progressBar := some ⟨s.totalPx, 0, false⟩}
    | some _ => s).progressBar.isSome = true
  cases hsb : s.progressBar with
  | none => rfl
  | some b => simp [hsb]

theorem ensureBar_count {ε : Type} (p : Bool) (s : DD) :
    barCountO (((ensureBar p : M ε Unit) s).2).progressBar =
      barCountO s.progressBar := by
  cases p with
  | false => rfl
  | true =>
    show barCountO ((match s.progressBar with
      | none => {s with progressBar := some ⟨s.totalPx, 0, false⟩}
      | some _ => s)).progressBar = barCountO s.progressBar
    cases hsb : s.progressBar with
    | none => rfl
    | some b => simp [hsb]

theorem tileBody_core {ε : Type} (O : Oracle ε) (C : Cfg) (h w y x : ℕ)
    (g : Tensor) : ∀ s, ddCore ((tileBody O C h w y x g s).2) = ddCore s := by
  intro s
  unfold tileBody
  refine mbind_core _ _ (fun s' => rfl) ?_ s
  intro st s1
  refine mbind_core _ _ (fun s' => rfl) ?_ s1
  intro act s2
  refine mbind_core _ _ (fun s' => rfl) ?_ s2
  intro grd s3
  refine mbind_core _ _ ?_ (fun a s' => rfl) s3
  intro s4
  cases hp : C.progress with
  | false => rfl
  | true => rfl

theorem mbind_proj {ε α β γ : Type} (f : DD → γ) (m : M ε α) (k : α → M ε β)
    (hm : ∀ s, f ((m s).2) = f s) (hk : ∀ a s, f ((k a s).2) = f s) :
    ∀ s, f ((mbind m k s).2) = f s := by
  intro s
  simp only [mbind]
  rcases hms : m s with ⟨r, s1⟩
  have h1 : f s1 = f s := by
    have h2 := hm s
    rw [hms] at h2
    exact h2
  cases r with
  | ok a => exact (hk a s1).trans h1
  | error e => exact h1

theorem mbind_mget {ε α : Type} (k : DD → M ε α) (s : DD) :
    mbind mget k s = k s s := rfl

theorem mbind_mpure {ε α β : Type} (a : α) (k : α → M ε β) (s : DD) :
    mbind (mpure a) k s = k a s := rfl

theorem mbind_mmodify {ε α : Type} (g : DD → DD) (k : Unit → M ε α) (s : DD) :
    mbind (mmodify g) k s = k () (g s) := rfl

theorem mbind_draw {ε α : Type} (lo hi : ℤ) (k : ℤ → M ε α) (s : DD) :
    mbind (draw lo hi) k s =
      k (s.rngStream s.rngPos lo hi) {s with rngPos := s.rngPos + 1} := rfl

theorem mbind_mlift {ε α β : Type} (r : Except ε α) (k : α → M ε β) (s : DD) :
    mbind (mlift r) k s =
      match r with
      | Except.ok a => k a s
      | Except.error e => (Except.error e, s) := by
  cases r with
  | ok a => rfl
  | error e => rfl

theorem mbind_ensureBar {ε α : Type} (p : Bool) (k : Unit → M ε α) (s : DD) :
    mbind (ensureBar p) k s = k () (((ensureBar p : M ε Unit) s).2) := by
  cases p with
  | false => rfl
  | true => rfl

theorem grad_tiled_core {ε : Type} (O : Oracle ε) (C : Cfg) :
    ∀ s, ddCore ((grad_tiled O C s).2) = ddCore s := by
  intro s
  unfold grad_tiled
  refine mbind_core _ _ (ensureBar_core C.progress) ?_ s
  intro u s1
  refine mbind_core _ _ (fun s' => rfl) ?_ s1
  intro st s2
  refine forFold_preserve ddCore _ ?_ _ _ s2
  intro a i s3
  refine forFold_preserve ddCore _ ?_ _ _ s3
  intro a1 i1 s4
  exact tileBody_core O C st.imgH st.imgW i i1 a1 s4

theorem barUpdate_count {ε : Type} (k : ℕ) (s : DD)
    (hs : s.progressBar.isSome = true) :
    (((barUpdate k : M ε Unit) s).2).progressBar.isSome = true ∧
      barCountO (((barUpdate k : M ε Unit) s).2).progressBar =
        barCountO s.progressBar + k := by
  cases hsb : s.progressBar with
  | none => rw [hsb] at hs; simp at hs
  | some b =>
    unfold barUpdate mmodify
    constructor
    · simp [hsb]
    · simp [hsb, barCountO]

theorem tileBody_count {ε : Type} (O : Oracle ε) (C : Cfg) (h w y x : ℕ)
    (g : Tensor) (hp : C.progress = true) :
    ∀ s g1 s1, s.progressBar.isSome = true →
      tileBody O C h w y x g s = (Except.ok g1, s1) →
      s1.progressBar.isSome = true ∧
        barCountO s1.progressBar = barCountO s.progressBar +
          tileLen h C.max_tile_size y * tileLen w C.max_tile_size x := by
  intro s g1 s1 hsome hrun
  unfold tileBody at hrun
  rw [mbind_mget, mbind_mlift] at hrun
  split at hrun
  · rw [mbind_mlift] at hrun
    split at hrun
    · rw [hp] at hrun
      simp only [if_true] at hrun
      unfold barUpdate at hrun
      rw [mbind_mmodify] at hrun
      simp only [mpure] at hrun
      injection hrun with h1 h2
      subst h2
      have hb := barUpdate_count (ε := ε)
        (tileLen h C.max_tile_size y * tileLen w C.max_tile_size x) s hsome
      exact ⟨hb.1, hb.2⟩
    · exact absurd (congrArg Prod.fst hrun) (by simp)
  · exact absurd (congrArg Prod.fst hrun) (by simp)

/-- The pixels a successful _grad_tiled reports when progress is on:
exactly height times width of the current image, the tile areas
summing to the full image area. -/
theorem grad_tiled_count {ε : Type} (O : Oracle ε) (C : Cfg)
    (hp : C.progress = true) :
    ∀ s g s1, 0 < s.imgH → 0 < s.imgW →
      grad_tiled O C s = (Except.ok g, s1) →
      s1.progressBar.isSome = true ∧
        barCountO s1.progressBar = barCountO s.progressBar + s.imgH * s.imgW := by
  intro s g s1 hh hw hrun
  unfold grad_tiled at hrun
  rw [mbind_ensureBar, mbind_mget] at hrun
  have hos : (((ensureBar C.progress : M ε Unit) s).2).progressBar.isSome = true := by
    rw [hp]
    exact ensureBar_isSome s
  have hoc : barCountO (((ensureBar C.progress : M ε Unit) s).2).progressBar =
      barCountO s.progressBar := ensureBar_count C.progress s
  have hcoreE : ddCore (((ensureBar C.progress : M ε Unit) s).2) = ddCore s :=
    ensureBar_core C.progress s
  have hEH : (((ensureBar C.progress : M ε Unit) s).2).imgH = s.imgH := core_imgH hcoreE
  have hEW : (((ensureBar C.progress : M ε Unit) s).2).imgW = s.imgW := core_imgW hcoreE
  -- the inner loop over one row of tiles
  have hinner : ∀ yy a s' a1 s1', s'.progressBar.isSome = true →
      forFold (tileCount (((ensureBar C.progress : M ε Unit) s).2).imgW C.max_tile_size) a
        (fun g1 xx => tileBody O C (((ensureBar C.progress : M ε Unit) s).2).imgH
          (((ensureBar C.progress : M ε Unit) s).2).imgW yy xx g1) s' = (Except.ok a1, s1') →
      s1'.progressBar.isSome = true ∧
        barCountO s1'.progressBar = barCountO s'.progressBar +
          tileLen (((ensureBar C.progress : M ε Unit) s).2).imgH C.max_tile_size yy *
            (((ensureBar C.progress : M ε Unit) s).2).imgW := by
    intro yy a s' a1 s1' hsome' hfold
    have hc := forFold_count
      (fun g1 xx => tileBody O C (((ensureBar C.progress : M ε Unit) s).2).imgH
        (((ensureBar C.progress : M ε Unit) s).2).imgW yy xx g1)
      (fun xx => tileLen (((ensureBar C.progress : M ε Unit) s).2).imgH C.max_tile_size yy *
        tileLen (((ensureBar C.progress : M ε Unit) s).2).imgW C.max_tile_size xx)
      (fun a' i' s'' a1' s1'' hs'' hb =>
        tileBody_count O C _ _ yy i' a' hp s'' a1' s1'' hs'' hb)
      _ a s' a1 s1' hsome' hfold
    refine ⟨hc.1, ?_⟩
    rw [hc.2, List.sum_map_mul_left, sum_tileLen _ _ (by rw [hEW]; exact hw)]
  have houter := forFold_count
    (fun g1 yy => forFold (tileCount (((ensureBar C.progress : M ε Unit) s).2).imgW
        C.max_tile_size) g1
      (fun g2 xx => tileBody O C (((ensureBar C.progress : M ε Unit) s).2).imgH
        (((ensureBar C.progress : M ε Unit) s).2).imgW yy xx g2))
    (fun yy => tileLen (((ensureBar C.progress : M ε Unit) s).2).imgH C.max_tile_size yy *
      (((ensureBar C.progress : M ε Unit) s).2).imgW)
    (fun a i s' a1 s1' hs' hb => hinner i a s' a1 s1' hs' hb)
    _ tZero _ g s1 hos hrun
  refine ⟨houter.1, ?_⟩
  rw [houter.2, hoc, List.sum_map_mul_right, sum_tileLen _ _ (by rw [hEH]; exact hh)]
  rw [hEH, hEW]

theorem dstep_imgH {s1 s2 : DD} (h : ddStep s1 = ddStep s2) : s1.imgH = s2.imgH :=
  congrArg (fun t => t.1) h

theorem dstep_imgW {s1 s2 : DD} (h : ddStep s1 = ddStep s2) : s1.imgW = s2.imgW :=
  congrArg (fun t => t.2.1) h

theorem dstep_totalPx {s1 s2 : DD} (h : ddStep s1 = ddStep s2) :
    s1.totalPx = s2.totalPx :=
  congrArg (fun t => t.2.2.1) h

theorem dstep_rngStream {s1 s2 : DD} (h : ddStep s1 = ddStep s2) :
    s1.rngStream = s2.rngStream :=
  congrArg (fun t => t.2.2.2) h

theorem stepOnce_ddStep {ε : Type} (O : Oracle ε) (C : Cfg) :
    ∀ s, ddStep ((stepOnce O C s).2) = ddStep s := by
  intro s
  unfold stepOnce
  refine mbind_proj ddStep _ _ (fun s' => rfl) ?_ s
  intro x s1
  refine mbind_proj ddStep _ _ (fun s' => rfl) ?_ s1
  intro y s2
  refine mbind_proj ddStep _ _ (fun s' => rfl) ?_ s2
  intro u s3
  refine mbind_proj ddStep _ _ ?_ ?_ s3
  · intro s'
    exact congrArg (fun t => (t.2.1, t.2.2.1, t.2.2.2.1, t.2.2.2.2.1))
      (grad_tiled_core O C s')
  · intro g s4
    exact mbind_proj ddStep _ _ (fun s' => rfl) (fun u' s' => rfl) s4

theorem stepOnce_rngPos {ε : Type} (O : Oracle ε) (C : Cfg) (s : DD) :
    ((stepOnce O C s).2).rngPos = s.rngPos + 2 := by
  unfold stepOnce
  rw [mbind_draw, mbind_draw, mbind_mmodify]
  refine Eq.trans (mbind_proj (fun st => st.rngPos) _ _ ?_ ?_ _) rfl
  · intro s'
    exact core_rngPos (grad_tiled_core O C s')
  · intro g s'
    exact mbind_proj _ _ _ (fun s'' => rfl) (fun u s'' => rfl) s'

theorem stepOnce_count {ε : Type} (O : Oracle ε) (C : Cfg)
    (hp : C.progress = true) :
    ∀ s u s1, 0 < s.imgH → 0 < s.imgW →
      stepOnce O C s = (Except.ok u, s1) →
      s1.progressBar.isSome = true ∧
        barCountO s1.progressBar = barCountO s.progressBar + s.imgH * s.imgW := by
  intro s u s1 hh hw hrun
  unfold stepOnce at hrun
  rw [mbind_draw, mbind_draw, mbind_mmodify] at hrun
  simp only [mbind] at hrun
  split at hrun
  · rename_i g sm heq
    have hg := grad_tiled_count O C hp _ g sm (by exact hh) (by exact hw) heq
    simp only [mmodify] at hrun
    injection hrun with h1 h2
    subst h2
    exact ⟨hg.1, hg.2⟩
  · rename_i e sm heq
    exact absurd (congrArg Prod.fst hrun) (by simp)

theorem step_ddStep {ε : Type} (O : Oracle ε) (C : Cfg) :
    ∀ n s, ddStep ((step O C n s).2) = ddStep s := by
  intro n
  induction n with
  | zero => intro s; rfl
  | succ k ih =>
    intro s
    show ddStep ((mbind (stepOnce O C) (fun _ => step O C k) s).2) = ddStep s
    exact mbind_proj ddStep _ _ (stepOnce_ddStep O C) (fun u s' => ih s') s

theorem step_rng_ok {ε : Type} (O : Oracle ε) (C : Cfg) :
    ∀ n s u s1, step O C n s = (Except.ok u, s1) →
      s1.rngPos = s.rngPos + 2 * n := by
  intro n
  induction n with
  | zero =>
    intro s u s1 h
    have h' : ((Except.ok () : Except ε Unit), s) = (Except.ok u, s1) := h
    injection h' with h1 h2
    subst h2
    omega
  | succ k ih =>
    intro s u s1 h
    have h' : mbind (stepOnce O C) (fun _ => step O C k) s = (Except.ok u, s1) := h
    simp only [mbind] at h'
    rcases hso : stepOnce O C s with ⟨r, sm⟩
    rw [hso] at h'
    cases r with
    | error e => exact absurd (congrArg Prod.fst h') (by simp)
    | ok uu =>
      have hpos : sm.rngPos = s.rngPos + 2 := by
        have h2 := stepOnce_rngPos O C s
        rw [hso] at h2
        exact h2
      have h3 := ih sm u s1 h'
      omega

theorem step_count {ε : Type} (O : Oracle ε) (C : Cfg) (hp : C.progress = true) :
    ∀ n s u s1, 0 < s.imgH → 0 < s.imgW →
      step O C n s = (Except.ok u, s1) →
      barCountO s1.progressBar =
        barCountO s.progressBar + n * (s.imgH * s.imgW) := by
  intro n
  induction n with
  | zero =>
    intro s u s1 hh hw h
    have h' : ((Except.ok () : Except ε Unit), s) = (Except.ok u, s1) := h
    injection h' with h1 h2
    subst h2
    omega
  | succ k ih =>
    intro s u s1 hh hw h
    have h' : mbind (stepOnce O C) (fun _ => step O C k) s = (Except.ok u, s1) := h
    simp only [mbind] at h'
    rcases hso : stepOnce O C s with ⟨r, sm⟩
    rw [hso] at h'
    cases r with
    | error e => exact absurd (congrArg Prod.fst h') (by simp)
    | ok uu =>
      have hsc := stepOnce_count O C hp s uu sm hh hw hso
      have hst : ddStep sm = ddStep s := by
        have h2 := stepOnce_ddStep O C s
        rw [hso] at h2
        exact h2
      have hmh := dstep_imgH hst
      have hmw := dstep_imgW hst
      have hk := ih sm u s1 (by rw [hmh]; exact hh) (by rw [hmw]; exact hw) h'
      rw [hmh, hmw] at hk
      have hr : (k + 1) * (s.imgH * s.imgW) =
          k * (s.imgH * s.imgW) + s.imgH * s.imgW := by ring
      omega

theorem tAdd_tZero (b : Tensor) : tAdd b tZero = b := by
  funext c i j
  simp [tAdd, tZero]

theorem closeBar_closed {s : DD} {b : Bar}
    (h : (closeBar s).progressBar = some b) : b.closed = true := by
  unfold closeBar at h
  cases hsb : s.progressBar with
  | none => rw [hsb] at h; simp at h
  | some b0 =>
    rw [hsb] at h
    simp only [Option.map_some] at h
    injection h with h1
    rw [← h1]

theorem closeBar_count (s : DD) :
    barCountO (closeBar s).progressBar = barCountO s.progressBar := by
  unfold closeBar
  cases hsb : s.progressBar with
  | none => rfl
  | some b0 => rfl

theorem mbind_eq_of {ε α β : Type} (m : M ε α) (k : α → M ε β) {s t : DD}
    (h : m s = m t) : mbind m k s = mbind m k t := by
  simp only [mbind, h]

theorem runFinally_eq_of {ε α : Type} (body : M ε α) (fin : DD → DD) {s t : DD}
    (h : body s = body t) : runFinally body fin s = runFinally body fin t := by
  simp only [runFinally, h]

theorem mbind_mpure_snd {ε α β : Type} (m : M ε α) (f : α → β) (s : DD) :
    (mbind m (fun a => mpure (f a)) s).2 = (m s).2 := by
  simp only [mbind]
  rcases hms : m s with ⟨r, s1⟩
  cases r with
  | ok a => rfl
  | error e => rfl

theorem mbind_mpure_fst {ε α β : Type} (m : M ε α) (f : α → β) (s : DD) :
    (mbind m (fun a => mpure (f a)) s).1 = Except.map f (m s).1 := by
  simp only [mbind]
  rcases hms : m s with ⟨r, s1⟩
  cases r with
  | ok a => rfl
  | error e => rfl

theorem mbind_fst_ok {ε α β : Type} (m : M ε α) (k : α → M ε β) (s : DD)
    (r : Except ε β)
    (hm : ∃ a s1, m s = (Except.ok a, s1))
    (hk : ∀ a s1, (k a s1).1 = r) :
    (mbind m k s).1 = r := by
  obtain ⟨a, s1, h⟩ := hm
  simp only [mbind, h]
  exact hk a s1

theorem npMedian_zero (l : List ℚ) (h : ∀ v ∈ l, v = 0) : npMedian l = 0 := by
  unfold npMedian
  have hmem : ∀ i, (l.insertionSort (· ≤ ·)).getD i 0 = 0 := by
    intro i
    rcases Nat.lt_or_ge i (l.insertionSort (· ≤ ·)).length with hlt | hge
    · rw [List.getD_eq_get _ _ hlt]
      exact h _ ((List.perm_insertionSort _ l).mem_iff.1 (List.get_mem _ i hlt))
    · exact List.getD_eq_default _ _ hge
  split_ifs with h0 h1
  · rfl
  · exact hmem _
  · rw [hmem _, hmem _]
    norm_num

/-! ## Claim C3 -/

/-- Claim C3: _octave_detail with scale_count = 1 starts the detail at
zero with the base image's shape (so the working image is the
unmodified base image, with no contribution from a coarser level),
performs exactly n gradient-ascent steps on it (each step draws exactly
two jitter values, so a successful run advances the draw position by
exactly 2n), and returns the post-ascent working image minus the base
image, with the final state keeping the base image's (h, w) shape. -/
theorem octave_scale_one {ε : Type} (O : Oracle ε) (C : Cfg) (h w : ℕ)
    (base : Tensor) (s : DD) :
    (octave_detail O C 1 h w base s =
      (mbind (addPx h w C.n)
        (fun _ => mbind (mmodify fun st => {st with img := base, imgH := h, imgW := w})
          (fun _ => mbind (step O C C.n)
            (fun _ => mbind mget fun st => mpure (tSub st.img base))))) s) ∧
    ((octave_detail O C 1 h w base s).2).imgH = h ∧
    ((octave_detail O C 1 h w base s).2).imgW = w ∧
    ((∃ d, (octave_detail O C 1 h w base s).1 = Except.ok d) →
      ((octave_detail O C 1 h w base s).2).rngPos = s.rngPos + 2 * C.n) ∧
    (∀ d, (octave_detail O C 1 h w base s).1 = Except.ok d →
      d = tSub ((octave_detail O C 1 h w base s).2).img base) := by
  have hA : octave_detail O C 1 h w base s =
      (mbind (addPx h w C.n)
        (fun _ => mbind (mmodify fun st => {st with img := base, imgH := h, imgW := w})
          (fun _ => mbind (step O C C.n)
            (fun _ => mbind mget fun st => mpure (tSub st.img base))))) s := by
    simp only [octave_detail, octaveFinish, tAdd_tZero]
  refine ⟨hA, ?_, ?_, ?_, ?_⟩
  · rw [hA]
    unfold addPx
    rw [mbind_mmodify, mbind_mmodify]
    exact Eq.trans (mbind_proj (fun st => st.imgH) _ _
      (fun s' => dstep_imgH (step_ddStep O C C.n s'))
      (fun a s' => rfl) _) rfl
  · rw [hA]
    unfold addPx
    rw [mbind_mmodify, mbind_mmodify]
    exact Eq.trans (mbind_proj (fun st => st.imgW) _ _
      (fun s' => dstep_imgW (step_ddStep O C C.n s'))
      (fun a s' => rfl) _) rfl
  · rintro ⟨d, hd⟩
    rw [hA] at hd ⊢
    unfold addPx at hd ⊢
    rw [mbind_mmodify, mbind_mmodify] at hd ⊢
    simp only [mbind] at hd ⊢
    split at hd
    · rename_i u sm heq
      have hrp := step_rng_ok O C C.n _ u sm heq
      simp only [mbind_mget, mpure, heq]
      exact hrp
    · rename_i e sm heq
      exact absurd hd (by simp)
  · intro d hd
    rw [hA] at hd ⊢
    unfold addPx at hd ⊢
    rw [mbind_mmodify, mbind_mmodify] at hd ⊢
    simp only [mbind] at hd ⊢
    split at hd
    · rename_i u sm heq
      simp only [mbind_mget, mpure, heq]
      simp only [mbind_mget, mpure] at hd
      injection hd with h1
      exact h1.symm
    · rename_i e sm heq
      exact absurd hd (by simp)

/-- Witness for C3 with the concrete oracle on a 1 by 1 base image:
the base-case run succeeds, its returned detail is the final image
minus the base, the final shape is the base's, and the draw position
advanced by exactly 2n = 2. -/
theorem octave_scale_one_witness :
    (∃ d, (octave_detail testOracle testCfg 1 1 1 tZero testState).1 =
        Except.ok d ∧
      d = tSub ((octave_detail testOracle testCfg 1 1 1 tZero testState).2).img
        tZero) ∧
    ((octave_detail testOracle testCfg 1 1 1 tZero testState).2).imgH = 1 ∧
    ((octave_detail testOracle testCfg 1 1 1 tZero testState).2).rngPos =
      testState.rngPos + 2 * testCfg.n := by
  have h := octave_scale_one testOracle testCfg 1 1 tZero testState
  refine ⟨⟨_, rfl, h.2.2.2.2 _ rfl⟩, h.2.1, h.2.2.2.1 ⟨_, rfl⟩⟩

/-! ## Claim C5 -/

/-- A run of _octave_detail is fully determined by the base image, the
parameters, and the (total_px, progress_bar, RNG) part of the incoming
state: the stale self.img of a previous run never leaks in, because the
working image is assigned before any use. -/
theorem octave_state_indep {ε : Type} (O : Oracle ε) (C : Cfg) :
    ∀ scale h w base (s t : DD),
      s.totalPx = t.totalPx → s.progressBar = t.progressBar →
      s.rngStream = t.rngStream → s.rngPos = t.rngPos →
      octave_detail O C scale h w base s = octave_detail O C scale h w base t := by
  intro scale
  induction scale using Nat.strong_induction_on with
  | _ scale ih =>
    rcases scale with _ | scale1
    · intro h w base s t h1 h2 h3 h4
      simp only [octave_detail, octaveFinish]
      unfold addPx
      simp only [mbind_mmodify]
      congr 1
      rw [h1, h2, h3, h4]
    · rcases scale1 with _ | sc
      · intro h w base s t h1 h2 h3 h4
        simp only [octave_detail, octaveFinish]
        unfold addPx
        simp only [mbind_mmodify]
        congr 1
        rw [h1, h2, h3, h4]
      · intro h w base s t h1 h2 h3 h4
        simp only [octave_detail]
        unfold addPx
        simp only [mbind_mmodify]
        refine mbind_eq_of _ _ ?_
        refine ih (sc + 1) (by omega) _ _ _ _ _ ?_ ?_ ?_ ?_
        · show s.totalPx + h * w * C.n = t.totalPx + h * w * C.n
          rw [h1]
        · exact h2
        · exact h3
        · exact h4

/-- Claim C5: two dream calls with identical input image, end layer and
configuration produce bit-identical outputs from any two incoming
object/RNG states, because the random seed is reset to the fixed
constant 0 (so the jitter stream is the fixed seed-0 stream), total_px
and the progress bar are reset, and the working image is overwritten
before use. -/
theorem dream_deterministic {ε : Type} (O : Oracle ε) (C : Cfg)
    (scale H W : ℕ) (input : Raster) (s1 s2 : DD) :
    (dream O C scale H W input s1).1 = (dream O C scale H W input s2).1 := by
  unfold dream
  rw [mbind_mmodify, mbind_mmodify]
  refine congrArg Prod.fst ?_
  refine mbind_eq_of _ _ ?_
  refine runFinally_eq_of _ _ ?_
  exact octave_state_indep O C scale H W (preprocess input) _ _ rfl rfl rfl rfl

/-! ## Claim C8 -/

/-- Claim C8: on every dream invocation, any progress bar recorded in
the final state has been closed — the finally block closes the sink
whether the recursive octave computation returned or raised. -/
theorem dream_closes_bar {ε : Type} (O : Oracle ε) (C : Cfg)
    (scale H W : ℕ) (input : Raster) (s0 : DD) (b : Bar)
    (hb : ((dream O C scale H W input s0).2).progressBar = some b) :
    b.closed = true := by
  unfold dream at hb
  rw [mbind_mmodify, mbind_mpure_snd] at hb
  simp only [runFinally] at hb
  exact closeBar_closed hb

/-- Witness for C8: the concrete run creates a bar (progress is on) and
its final state holds it closed with total 1 and count 1. -/
theorem dream_closes_bar_witness :
    ((dream testOracle testCfg 1 1 1 (fun _ _ _ => 0) testState).2).progressBar =
      some ⟨1, 1, true⟩ ∧
    (Bar.mk 1 1 true).closed = true := by
  constructor
  · decide
  · exact dream_closes_bar testOracle testCfg 1 1 1 (fun _ _ _ => 0) testState
      ⟨1, 1, true⟩ (by decide)

/-! ## Claim C4 -/

/-- A successful octaveFinish (image assignment plus n ascent steps)
reports exactly n times h times w pixels to the bar. -/
theorem octaveFinish_count {ε : Type} (O : Oracle ε) (C : Cfg)
    (hp : C.progress = true) :
    ∀ h w base detail s d s1, 0 < h → 0 < w →
      octaveFinish O C h w base detail s = (Except.ok d, s1) →
      barCountO s1.progressBar = barCountO s.progressBar + C.n * (h * w) := by
  intro h w base detail s d s1 hh hw hrun
  unfold octaveFinish at hrun
  rw [mbind_mmodify] at hrun
  simp only [mbind] at hrun
  split at hrun
  · rename_i u sm heq
    have hc := step_count O C hp C.n _ u sm (by exact hh) (by exact hw) heq
    simp only [mget, mpure] at hrun
    injection hrun with h1 h2
    subst h2
    exact hc
  · rename_i e sm heq
    exact absurd (congrArg Prod.fst hrun) (by simp)

/-- A successful _octave_detail reports n times the area of every
visited octave level. -/
theorem octave_count {ε : Type} (O : Oracle ε) (C : Cfg)
    (hp : C.progress = true)
    (hshr : ∀ d, 0 < d → 0 < O.shrink C.per_octave d) :
    ∀ scale h w base s d s1, 0 < h → 0 < w →
      octave_detail O C scale h w base s = (Except.ok d, s1) →
      barCountO s1.progressBar = barCountO s.progressBar +
        C.n * ((levelSizes O C scale h w).map fun p => p.1 * p.2).sum := by
  intro scale
  induction scale using Nat.strong_induction_on with
  | _ scale ih =>
    rcases scale with _ | scale1
    · intro h w base s d s1 hh hw hrun
      simp only [octave_detail] at hrun
      unfold addPx at hrun
      rw [mbind_mmodify] at hrun
      have hc := octaveFinish_count O C hp h w base tZero _ d s1 hh hw hrun
      simp only [levelSizes, List.map_cons, List.map_nil, List.sum_cons,
        List.sum_nil]
      exact hc
    · rcases scale1 with _ | sc
      · intro h w base s d s1 hh hw hrun
        simp only [octave_detail] at hrun
        unfold addPx at hrun
        rw [mbind_mmodify] at hrun
        have hc := octaveFinish_count O C hp h w base tZero _ d s1 hh hw hrun
        simp only [levelSizes, List.map_cons, List.map_nil, List.sum_cons,
          List.sum_nil]
        exact hc
      · intro h w base s d s1 hh hw hrun
        simp only [octave_detail] at hrun
        unfold addPx at hrun
        rw [mbind_mmodify] at hrun
        simp only [mbind] at hrun
        split at hrun
        · rename_i sd sm heq
          have hrec := ih (sc + 1) (by omega) (O.shrink C.per_octave h)
            (O.shrink C.per_octave w) _ _ sd sm (hshr h hh) (hshr w hw) heq
          have hfin := octaveFinish_count O C hp h w base _ sm d s1 hh hw hrun
          dsimp only at hrec
          rw [hfin, hrec]
          simp only [levelSizes, List.map_cons, List.sum_cons, Nat.mul_add,
            Nat.succ_eq_add_one]
          omega
        · rename_i e sm heq
          exact absurd (congrArg Prod.fst hrun) (by simp)

/-- Claim C4: for a dream run with positive input dimensions (and
positive octave sizes throughout), the cumulative pixel count the run
reports to the progress sink equals n times the sum of height times
width over all visited octave levels — each tile reporting its own
area on completion. -/
theorem dream_progress_accounting {ε : Type} (O : Oracle ε) (C : Cfg)
    (scale H W : ℕ) (input : Raster) (s0 : DD)
    (hp : C.progress = true) (hH : 0 < H) (hW : 0 < W)
    (hshr : ∀ d, 0 < d → 0 < O.shrink C.per_octave d)
    (hok : ∃ out, (dream O C scale H W input s0).1 = Except.ok out) :
    barCountO ((dream O C scale H W input s0).2).progressBar =
      C.n * ((levelSizes O C scale H W).map fun p => p.1 * p.2).sum := by
  obtain ⟨out, hout⟩ := hok
  unfold dream at hout ⊢
  rw [mbind_mmodify] at hout ⊢
  rw [mbind_mpure_snd]
  rw [mbind_mpure_fst] at hout
  simp only [runFinally] at hout ⊢
  rw [closeBar_count]
  rcases hfst : octave_detail O C scale H W (preprocess input) {s0 with rngStream := O.zstream, rngPos := 0, totalPx := 0, progressBar := none} with ⟨r, sN⟩
  cases r with
  | error e =>
    rw [hfst] at hout
    simp [Except.map] at hout
  | ok d =>
    have hcount := octave_count O C hp hshr scale H W (preprocess input)
      _ d sN hH hW hfst
    dsimp only at hcount ⊢
    rw [hcount]
    simp [barCountO]

/-- Witness for C4: the concrete single-octave run on a 1 by 1 image
reports exactly n times the level area. -/
theorem dream_progress_accounting_witness :
    barCountO ((dream testOracle testCfg 1 1 1
        (fun _ _ _ => 0) testState).2).progressBar =
      testCfg.n * ((levelSizes testOracle testCfg 1 1 1).map
        fun p => p.1 * p.2).sum :=
  dream_progress_accounting testOracle testCfg 1 1 1 (fun _ _ _ => 0) testState
    rfl (by decide) (by decide) (fun d hd => hd) ⟨_, rfl⟩

/-! ## Claim C9 -/

/-- _grad_tiled always succeeds and stitches a pointwise-zero gradient
when the network's forward pass succeeds and its backward pass returns
the uniformly zero gradient for every tile. -/
theorem grad_tiled_zero_ok {ε : Type} (O : Oracle ε) (C : Cfg)
    (hF : ∀ l th tw t, ∃ a, O.F l th tw t = Except.ok a)
    (hB : ∀ l th tw t a, O.B l th tw t a = Except.ok tZero) :
    ∀ s, ∃ g s1, grad_tiled O C s = (Except.ok g, s1) ∧
      (∀ c i j, g c i j = 0) := by
  have htile : ∀ h w y x g s, (∀ c i j, (g : Tensor) c i j = 0) →
      ∃ g1 s1, tileBody O C h w y x g s = (Except.ok g1, s1) ∧
        (∀ c i j, g1 c i j = 0) := by
    intro h w y x g s hg
    unfold tileBody
    rw [mbind_mget]
    obtain ⟨act, hact⟩ := hF C.endLayer (tileLen h C.max_tile_size y)
      (tileLen w C.max_tile_size x)
      (fun c i j => if i < tileLen h C.max_tile_size y ∧
          j < tileLen w C.max_tile_size x then
        s.img c (tileStart h C.max_tile_size y + i)
          (tileStart w C.max_tile_size x + j) else 0)
    rw [mbind_mlift]
    simp only [hact]
    rw [mbind_mlift]
    simp only [hB]
    cases hp : C.progress with
    | false =>
      simp only [Bool.false_eq_true, if_false, mbind_mpure, mpure]
      refine ⟨_, _, rfl, ?_⟩
      intro c i j
      split_ifs with hcond
      · rfl
      · exact hg c i j
    | true =>
      simp only [if_true]
      unfold barUpdate
      rw [mbind_mmodify]
      simp only [mpure]
      refine ⟨_, _, rfl, ?_⟩
      intro c i j
      split_ifs with hcond
      · rfl
      · exact hg c i j
  intro s
  unfold grad_tiled
  rw [mbind_ensureBar, mbind_mget]
  have hout := forFold_ok_inv (fun (g : Tensor) => ∀ c i j, g c i j = 0)
    (fun g y => forFold (tileCount (((ensureBar C.progress : M ε Unit) s).2).imgW
        C.max_tile_size) g
      (fun g1 x => tileBody O C (((ensureBar C.progress : M ε Unit) s).2).imgH
        (((ensureBar C.progress : M ε Unit) s).2).imgW y x g1))
    (fun a i s' ha => forFold_ok_inv _ _
      (fun a1 i1 s1' ha1 => htile _ _ i i1 a1 s1' ha1) _ a s' ha)
    (tileCount (((ensureBar C.progress : M ε Unit) s).2).imgH C.max_tile_size)
    tZero (((ensureBar C.progress : M ε Unit) s).2) (fun c i j => rfl)
  exact hout

/-- Claim C9: each gradient-ascent step updates the image by
step_size * g / median(|g|) (visible in the stepOnce definition); when
the stitched gradient g is uniformly zero at some step, the division is
unguarded — the step completes without raising any explicit error, and
its divisor, the median of the absolute gradient, is exactly zero (in
IEEE arithmetic the resulting update is a not-a-number or infinite
value; exact rational arithmetic cannot express that non-finite result,
but it exhibits the same unguarded zero divisor on the same code
path). -/
theorem step_zero_gradient_unguarded {ε : Type} (O : Oracle ε) (C : Cfg)
    (s : DD)
    (hF : ∀ l th tw t, ∃ a, O.F l th tw t = Except.ok a)
    (hB : ∀ l th tw t a, O.B l th tw t a = Except.ok tZero) :
    (stepOnce O C s).1 = Except.ok () ∧
    (∀ s1 g s2, grad_tiled O C s1 = (Except.ok g, s2) →
      (∀ c i j, g c i j = 0) ∧
      npMedian ((tenList s1.imgH s1.imgW g).map fun v => |v|) = 0) := by
  constructor
  · unfold stepOnce
    rw [mbind_draw, mbind_draw, mbind_mmodify]
    refine mbind_fst_ok _ _ _ _ ?_ ?_
    · obtain ⟨g, s1, heq, hz⟩ := grad_tiled_zero_ok O C hF hB _
      exact ⟨g, s1, heq⟩
    · intro a s1
      rw [mbind_mmodify]
      rfl
  · intro s1 g s2 heq
    obtain ⟨g', s2', heq', hz'⟩ := grad_tiled_zero_ok O C hF hB s1
    rw [heq] at heq'
    have hgg : g = g' := by
      injection heq' with h1 h2
      injection h1.symm with h3
      exact h3.symm
    subst hgg
    refine ⟨hz', npMedian_zero _ ?_⟩
    intro v hv
    simp only [List.mem_map, tenList, List.mem_flatMap, List.mem_range] at hv
    obtain ⟨a, ⟨c, hc, i, hi, j, hj, rfl⟩, rfl⟩ := hv
    rw [hz' c i j]
    simp

/-- Witness for C9 with the concrete zero-gradient oracle on the
concrete state: the step raises no error and the gradient actually
produced by _grad_tiled has zero median absolute value. -/
theorem step_zero_gradient_unguarded_witness :
    (stepOnce zeroGradOracle testCfg testState).1 = Except.ok () ∧
    ∃ g s2, grad_tiled zeroGradOracle testCfg testState = (Except.ok g, s2) ∧
      npMedian ((tenList testState.imgH testState.imgW g).map
        fun v => |v|) = 0 := by
  have h := step_zero_gradient_unguarded zeroGradOracle testCfg testState
    (fun l th tw t => ⟨tZero, rfl⟩) (fun l th tw t a => rfl)
  refine ⟨h.1, ?_⟩
  obtain ⟨g, s2, heq, hz⟩ := grad_tiled_zero_ok zeroGradOracle testCfg
    (fun l th tw t => ⟨tZero, rfl⟩) (fun l th tw t a => rfl) testState
  exact ⟨g, s2, heq, (h.2 testState g s2 heq).2⟩

/-! ## Claim C6 -/

/-- Claim C6: when max_tile_size is at least both image dimensions,
_grad_tiled uses a single tile (a 1 by 1 grid) and, at every in-bounds
pixel, its result — success value or raised error alike — equals the
gradient of one direct forward/backward pass over the whole image with
the end layer's gradient seeded by its own activation. -/
theorem grad_tiled_single_tile {ε : Type} (O : Oracle ε) (C : Cfg) (s : DD)
    (hh : 0 < s.imgH) (hw : 0 < s.imgW)
    (hmh : s.imgH ≤ C.max_tile_size) (hmw : s.imgW ≤ C.max_tile_size)
    (c y x : ℕ) (hy : y < s.imgH) (hx : x < s.imgW) :
    tileCount s.imgH C.max_tile_size = 1 ∧
    tileCount s.imgW C.max_tile_size = 1 ∧
    Except.map (fun t => t c y x) ((grad_tiled O C s).1) =
      Except.map (fun t => t c y x) (gradDirect O C s.imgH s.imgW s.img) := by
  have hcount_h : tileCount s.imgH C.max_tile_size = 1 := by
    rw [tileCount_eq _ _ hh]
    rw [Nat.div_eq_of_lt (by omega)]
  have hcount_w : tileCount s.imgW C.max_tile_size = 1 := by
    rw [tileCount_eq _ _ hw]
    rw [Nat.div_eq_of_lt (by omega)]
  have hlen_h : tileLen s.imgH C.max_tile_size 0 = s.imgH := by
    unfold tileLen
    rw [hcount_h]
    simp
  have hlen_w : tileLen s.imgW C.max_tile_size 0 = s.imgW := by
    unfold tileLen
    rw [hcount_w]
    simp
  have hstart_h : tileStart s.imgH C.max_tile_size 0 = 0 := by
    unfold tileStart
    simp
  have hstart_w : tileStart s.imgW C.max_tile_size 0 = 0 := by
    unfold tileStart
    simp
  refine ⟨hcount_h, hcount_w, ?_⟩
  have hcore := ensureBar_core (ε := ε) C.progress s
  have hEH := core_imgH hcore
  have hEW := core_imgW hcore
  have hEimg := core_img hcore
  unfold grad_tiled gradDirect
  rw [mbind_ensureBar, mbind_mget, hEH, hEW, hcount_h, hcount_w]
  simp only [forFold, mbind_mpure]
  unfold tileBody
  rw [mbind_mget, hEimg, hlen_h, hlen_w, hstart_h, hstart_w]
  have htile : (fun c' i j => if i < s.imgH ∧ j < s.imgW then
      s.img c' (0 + i) (0 + j) else (0 : ℚ)) =
    (fun c' i j => if i < s.imgH ∧ j < s.imgW then s.img c' i j else 0) := by
    funext c' i j
    simp
  rw [htile]
  rcases hFr : O.F C.endLayer s.imgH s.imgW
      (fun c' i j => if i < s.imgH ∧ j < s.imgW then s.img c' i j else 0)
    with e | act
  · rw [mbind_mlift]
  · rw [mbind_mlift]
    simp only
    rcases hBr : O.B C.endLayer s.imgH s.imgW
        (fun c' i j => if i < s.imgH ∧ j < s.imgW then s.img c' i j else 0) act
      with e | grd
    · rw [mbind_mlift]
    · rw [mbind_mlift]
      simp only
      cases hp : C.progress with
      | false =>
        simp only [Bool.false_eq_true, if_false, mbind_mpure, mpure, Except.map]
        simp [hy, hx]
      | true =>
        simp only [if_true]
        unfold barUpdate
        rw [mbind_mmodify]
        simp only [mpure, Except.map]
        simp [hy, hx]

/-- Witness for C6 on the concrete 1 by 1 state with tile edge 1. -/
theorem grad_tiled_single_tile_witness :
    tileCount testState.imgH testCfg.max_tile_size = 1 ∧
    tileCount testState.imgW testCfg.max_tile_size = 1 ∧
    Except.map (fun t => t 0 0 0) ((grad_tiled testOracle testCfg testState).1) =
      Except.map (fun t => t 0 0 0)
        (gradDirect testOracle testCfg testState.imgH testState.imgW
          testState.img) :=
  grad_tiled_single_tile testOracle testCfg testState (by decide) (by decide)
    (by decide) (by decide) 0 0 0 (by decide) (by decide)

end DeepDream

